import Mathlib

/-!
Verification model of the Devfetch tool-discovery core.

Shallow embedding of the Rust sources:
  * `src/core/probe.rs`      — version probing and extraction (regex modelled
    as an executable matcher with the regex crate's leftmost, preference-order
    semantics for this concrete pattern);
  * `src/core/exec.rs`       — process executor with poll loop and timeout
    (child processes modelled by a spawn outcome and an optional finish time);
  * `src/core/classify.rs`   — heuristic tool classifier;
  * `src/core/path_scan.rs`  — discovery pipeline (the PATH environment is
    modelled as a candidate list, the operating system as an executor
    function; rayon's indexed `collect` preserves candidate order, and
    completion-order independence is proved over arbitrary permutations);
  * `src/core/project_detect.rs` — ecosystem probing and JSON dependency
    extraction (serde values modelled by an inductive JSON type).

Strings are modelled as `List Char`.  Rust `str::len` counts UTF-8 bytes, so
the length gate in `looks_like_version` uses an explicit per-char UTF-8 byte
count.  Character classes (`\s`, `\d`, `[a-z0-9]`, ASCII lowercasing) are
modelled on the ASCII range, which all claim inputs inhabit.
-/

/-- `\d` character class (ASCII digits, as matched by the version regex). -/
def isDigitC (c : Char) : Bool := '0' ≤ c && c ≤ '9'

/-- `\s` character class (ASCII whitespace). -/
def isSpaceC (c : Char) : Bool :=
  c = ' ' || c = '\t' || c = '\n' || c = '\r' || c = '\x0B' || c = '\x0C'

/-- `[a-z0-9]` under the regex's case-insensitive flag. -/
def isAlnumC (c : Char) : Bool :=
  isDigitC c || ('a' ≤ c && c ≤ 'z') || ('A' ≤ c && c ≤ 'Z')

/-- ASCII lowercasing of one character (models `str::to_lowercase` and the
regex's case-insensitive comparison on the inputs considered). -/
def toLowerC (c : Char) : Char :=
  if 'A' ≤ c && c ≤ 'Z' then Char.ofNat (c.toNat + 32) else c

/-- Number of bytes of the UTF-8 encoding of one character. -/
def utf8Bytes (c : Char) : Nat :=
  if c.toNat < 0x80 then 1
  else if c.toNat < 0x800 then 2
  else if c.toNat < 0x10000 then 3
  else 4

/-- `str::len` in Rust: the UTF-8 byte length. -/
def byteLen (l : List Char) : Nat := (l.map utf8Bytes).sum

/-- `str::trim`: strip leading and trailing whitespace. -/
def trimChars (l : List Char) : List Char :=
  ((l.dropWhile isSpaceC).reverse.dropWhile isSpaceC).reverse

/-- `s.trim().is_empty()` in `exec.rs`. -/
def isBlank (l : List Char) : Bool := (trimChars l).isEmpty

/-- `str::contains` on a needle (true on the empty needle, as in Rust). -/
def containsSub : List Char → List Char → Bool
  | [], pat => pat.isEmpty
  | l@(_ :: t), pat => pat.isPrefixOf l || containsSub t pat

/-!
### The version regex, `probe.rs` lines 9–14

`(?i)(?:version\s+)?v?(\d+(?:\.\d+){1,3}(?:[.-][a-z0-9]+)?)`

The matcher below implements the regex crate's semantics for this pattern:
the match starts at the leftmost possible position, and at a given position
alternatives are tried in preference order (optional pieces first present
then absent, greedy repetition longest first).  For this pattern every
greedy consumption is safe — after a maximal run of `\d` the next required
character is `.` or `-`, never a digit, and nothing follows the capture
group — so the matcher needs no backtracking inside the repetitions.
-/

/-- One mandatory repetition step `\.\d+` (greedy on the digits). -/
def iterOnce (s : List Char) : Option (List Char × List Char) :=
  match s with
  | c :: rest =>
      if c = '.' then
        let ds := rest.takeWhile isDigitC
        if ds.isEmpty then none else some ('.' :: ds, rest.dropWhile isDigitC)
      else none
  | [] => none

/-- Greedy `(\.\d+){0,n}`: consumed characters and remainder. -/
def matchIters : List Char → Nat → List Char × List Char
  | s, 0 => ([], s)
  | s, n + 1 =>
      match iterOnce s with
      | some (c, r) => let p := matchIters r n; (c ++ p.1, p.2)
      | none => ([], s)

/-- Optional greedy `(?:[.-][a-z0-9]+)?` tail; returns the consumed characters. -/
def sfxAfter (s : List Char) : List Char :=
  match s with
  | c :: rest =>
      if c = '.' || c = '-' then
        let al := rest.takeWhile isAlnumC
        if al.isEmpty then [] else c :: al
      else []
  | [] => []

/-- The capture group `(\d+(?:\.\d+){1,3}(?:[.-][a-z0-9]+)?)` matched at the
start of `s`; returns the captured characters. -/
def matchCore (s : List Char) : Option (List Char) :=
  let ds := s.takeWhile isDigitC
  if ds.isEmpty then none
  else
    match iterOnce (s.dropWhile isDigitC) with
    | none => none
    | some (c1, r1) =>
        let p := matchIters r1 2
        some (ds ++ c1 ++ p.1 ++ sfxAfter p.2)

/-- `v?` then the capture group, trying `v` present before `v` absent. -/
def matchAfterV (s : List Char) : Option (List Char) :=
  match s with
  | c :: rest =>
      if c = 'v' || c = 'V' then matchCore rest <|> matchCore s else matchCore s
  | [] => none

/-- The literal `version` of the optional prefix. -/
def vPat : List Char := ['v', 'e', 'r', 's', 'i', 'o', 'n']

/-- Case-insensitive literal prefix stripping. -/
def stripCI : List Char → List Char → Option (List Char)
  | [], s => some s
  | _ :: _, [] => none
  | p :: ps, c :: cs => if toLowerC c = p then stripCI ps cs else none

/-- Whole pattern anchored at the start of `s`: `(?:version\s+)?` (greedy,
preferred present) then `v?` then the capture group. -/
def matchAt (s : List Char) : Option (List Char) :=
  (match stripCI vPat s with
   | some r =>
       if (r.takeWhile isSpaceC).isEmpty then none
       else matchAfterV (r.dropWhile isSpaceC)
   | none => none)
  <|> matchAfterV s

/-- Leftmost match of the version regex: the capture of group 1, scanning
start positions left to right. -/
def findCapture : List Char → Option (List Char)
  | [] => none
  | c :: rest => matchAt (c :: rest) <|> findCapture rest

/-- `str::lines` strips one trailing carriage return from each line. -/
def stripCR (l : List Char) : List Char :=
  if l.getLast? = some '\r' then l.dropLast else l

/-- `text.lines().next()`: none on the empty string, otherwise everything
before the first newline with a trailing `'\r'` removed. -/
def firstLine (t : List Char) : Option (List Char) :=
  match t with
  | [] => none
  | _ :: _ => some (stripCR (t.takeWhile (fun c => !(c = '\n'))))

/-- `extract_version`, `probe.rs` lines 47–56: apply the regex to the first
line only and return capture group 1. -/
def extract_version (t : List Char) : Option (List Char) :=
  (firstLine t).bind findCapture

/-- The keyword test of `looks_like_version` on the lowercased output. -/
def keywordHit (l : List Char) : Bool :=
  let low := l.map toLowerC
  containsSub low ("version".toList) || containsSub low ("copyright".toList)
    || containsSub low ("release".toList)

/-- `looks_like_version`, `probe.rs` lines 59–75: reject outputs over 500
bytes, otherwise accept on a keyword or a regex match (whole text). -/
def looks_like_version (l : List Char) : Bool :=
  if byteLen l > 500 then false
  else keywordHit l || (findCapture l).isSome

/-!
### Process executor, `exec.rs`

A child process is modelled by its spawn outcome: spawning either fails, or
yields a child that produces a fixed `ProcOutput` and terminates at an
optional wall-clock instant `finish` (in milliseconds; `none` = never).
`execute_command` polls `try_wait` every 25 ms from instant 0 and enforces
the 1500 ms budget; the side effects it performs on the child (`kill`, the
reaping `wait`, the final `wait_with_output` collection) are recorded as an
action trace.  `try_wait` itself is modelled as infallible.
-/

structure ProcOutput where
  stdout : List Char
  stderr : List Char
  exitSuccess : Bool
deriving DecidableEq

inductive ExecErr where
  | spawnFailed
  | timedOut (program : List Char)
deriving DecidableEq

inductive ProcAction where
  | kill
  | reap
  | collect
deriving DecidableEq

inductive SpawnOutcome where
  | fail
  | child (finish : Option Nat) (out : ProcOutput)
deriving DecidableEq

/-- `COMMAND_TIMEOUT_MS` in `exec.rs`. -/
def COMMAND_TIMEOUT_MS : Nat := 1500

/-- The `try_wait` check: has the child terminated by instant `t`? -/
def childDone (finish : Option Nat) (t : Nat) : Bool :=
  match finish with
  | some f => decide (f ≤ t)
  | none => false

/-- The polling loop of `execute_command` at elapsed time `t`. -/
def execLoop (finish : Option Nat) (out : ProcOutput) (prog : List Char) (t : Nat) :
    Except ExecErr ProcOutput × List ProcAction :=
  if childDone finish t then
    (.ok out, [.collect])
  else if COMMAND_TIMEOUT_MS ≤ t then
    (.error (.timedOut prog), [.kill, .reap])
  else
    execLoop finish out prog (t + 25)
termination_by COMMAND_TIMEOUT_MS - t
decreasing_by simp only [COMMAND_TIMEOUT_MS] at *; omega

/-- `execute_command`, `exec.rs` lines 10–40. -/
def execute_command (s : SpawnOutcome) (prog : List Char) :
    Except ExecErr ProcOutput × List ProcAction :=
  match s with
  | .fail => (.error .spawnFailed, [])
  | .child finish out => execLoop finish out prog 0

/-- The stream-selection logic of `execute_for_output`, `exec.rs` lines
45–72, as a function of the executor's result. -/
def execute_for_output_res (r : Except ExecErr ProcOutput) : Option (List Char) :=
  match r with
  | .ok o =>
      if o.exitSuccess then
        let text := if isBlank o.stdout then o.stderr else o.stdout
        if isBlank text then none else some text
      else
        let text := if !(isBlank o.stderr) then o.stderr else o.stdout
        if isBlank text then none else some text
  | .error _ => none

/-- `execute_for_output` composed with the executor. -/
def execute_for_output (s : SpawnOutcome) (prog : List Char) : Option (List Char) :=
  execute_for_output_res (execute_command s prog).1

/-!
### Version prober, `probe.rs` lines 17–44

The executor available to `probe_version` for a fixed binary path is
abstracted as `e : List String → Option (List Char)`, the result of
`execute_for_output` for each argument list.
-/

structure ProbeResult where
  success : Bool
  output : List Char
  version : Option (List Char)
deriving DecidableEq

/-- The fixed strategy table of `probe_version`. -/
def strategies : List (List String) := [["--version"], ["-v"], ["version"], ["-V"]]

/-- The strategy loop of `probe_version`. -/
def probeGo (e : List String → Option (List Char)) : List (List String) → ProbeResult
  | [] => ⟨false, [], none⟩
  | s :: rest =>
      match e s with
      | some o =>
          match extract_version o with
          | some v => ⟨true, trimChars o, some v⟩
          | none => probeGo e rest
      | none => probeGo e rest

/-- `probe_version`: first strategy whose output yields an extracted version
wins; otherwise a failed result. -/
def probe_version (e : List String → Option (List Char)) : ProbeResult :=
  probeGo e strategies

/-!
### Classifier, `classify.rs`
-/

inductive ToolCategory where
  | LanguageToolchain
  | PackageManager
  | BuildSystem
  | DeveloperTool
  | Unknown
deriving DecidableEq

/-- `name.starts_with(pattern) || name == *pattern` over a vocabulary. -/
def matchesVocab (name : List Char) (pats : List (List Char)) : Bool :=
  pats.any (fun p => p.isPrefixOf name || name == p)

def languagePatterns : List (List Char) :=
  List.map String.toList
    ["python", "python2", "python3", "pypy",
     "node", "deno", "bun",
     "ruby", "irb",
     "java", "javac", "jshell",
     "go",
     "rustc", "rust",
     "gcc", "g++", "clang", "clang++", "cc", "c++",
     "dotnet", "csc", "fsc",
     "php",
     "perl",
     "lua", "luajit",
     "kotlinc", "kotlin",
     "scala", "scalac",
     "swift", "swiftc",
     "dart",
     "rscript",
     "erl", "erlc", "elixir", "iex",
     "ghc", "ghci", "runhaskell",
     "zig",
     "nim",
     "crystal",
     "vlang",
     "julia",
     "ocaml", "ocamlc",
     "fsharp", "fsharpc",
     "clojure", "clj",
     "racket",
     "scheme", "guile"]

def pathIndicators : List (List Char) :=
  List.map String.toList
    [".sdkman", ".nvm", ".rbenv", ".pyenv", ".asdf",
     ".rustup", ".cargo", ".local/share/virtualenvs"]

/-- `is_language_toolchain`, `classify.rs` lines 40–120. -/
def is_language_toolchain (name path : List Char) : Bool :=
  matchesVocab name languagePatterns || pathIndicators.any (fun i => containsSub path i)

def packageManagers : List (List Char) :=
  List.map String.toList
    ["npm", "yarn", "pnpm", "bun",
     "pip", "pip3", "pipenv", "poetry", "conda", "mamba", "uv",
     "gem", "bundle", "bundler",
     "composer",
     "cargo",
     "mvn", "gradle", "ant", "sbt",
     "nuget",
     "swift",
     "pub",
     "mix", "hex",
     "cpan", "cpanm",
     "conan", "vcpkg",
     "brew", "apt", "yum", "dnf", "pacman", "zypper",
     "nix", "nix-env"]

/-- `is_package_manager`, `classify.rs` lines 123–158 (exact-name match). -/
def is_package_manager (name : List Char) : Bool :=
  packageManagers.any (fun p => name == p)

def buildSystems : List (List Char) :=
  List.map String.toList
    ["make", "cmake", "ninja", "meson", "bazel", "buck",
     "gradle", "maven", "ant", "sbt",
     "rake", "grunt", "gulp", "webpack", "vite", "rollup", "parcel",
     "cargo",
     "dotnet",
     "xcodebuild",
     "msbuild",
     "nant",
     "waf",
     "scons",
     "tup",
     "b2", "bjam"]

/-- `is_build_system`, `classify.rs` lines 161–178 (exact-name match). -/
def is_build_system (name : List Char) : Bool :=
  buildSystems.any (fun p => name == p)

def devToolPatterns : List (List Char) :=
  List.map String.toList
    ["git", "svn", "hg", "mercurial", "fossil",
     "docker", "podman", "kubectl", "helm", "kind", "minikube",
     "terraform", "ansible", "vagrant", "packer",
     "psql", "mysql", "sqlite3", "mongosh", "redis-cli",
     "code", "emacs", "nvim", "neovim",
     "eslint", "prettier", "black", "flake8", "pylint", "rubocop",
     "rustfmt", "clippy", "gofmt",
     "jest", "mocha", "pytest", "rspec",
     "aws", "gcloud", "az", "heroku", "netlify",
     "gdb", "lldb",
     "perf", "valgrind"]

/-- `is_developer_tool`, `classify.rs` lines 181–218. -/
def is_developer_tool (name path : List Char) : Bool :=
  matchesVocab name devToolPatterns
    || containsSub path ("visual studio code".toList)
    || containsSub path ("jetbrains".toList)

/-- `classify_tool`, `classify.rs` lines 12–37: ordered first-match-wins
rules over the lowercased name and path. -/
def classify_tool (name path : List Char) : ToolCategory :=
  let nl := name.map toLowerC
  let pl := path.map toLowerC
  if is_language_toolchain nl pl then .LanguageToolchain
  else if is_package_manager nl then .PackageManager
  else if is_build_system nl then .BuildSystem
  else if is_developer_tool nl pl then .DeveloperTool
  else .Unknown

/-!
### Path scanner and discovery pipeline, `path_scan.rs` lines 104–166

`scan_path` deduplicates names and sorts them; `discover_tools` resolves
candidates to paths (modelled as the given `(name, path)` candidate list),
probes them in parallel with rayon (`par_iter().filter_map(...).collect()`
preserves candidate order), retains a candidate when its probe succeeded and
its trimmed probe output passes the heuristic, and finally sorts by name.
The operating system is abstracted as `ex : path → arguments → optional
output`, the per-path `execute_for_output`.
-/

structure Tool where
  name : List Char
  path : List Char
  version : Option (List Char)
  category : ToolCategory
deriving DecidableEq

/-- Byte-lexicographic string order (`Ord` on Rust `String`; on UTF-8,
byte order and code-point order agree). -/
def leChars : List Char → List Char → Bool
  | [], _ => true
  | _ :: _, [] => false
  | a :: xs, b :: ys => if a = b then leChars xs ys else decide (a < b)

/-- The comparison `a.name.cmp(&b.name)` used by the final sort. -/
def toolLe (a b : Tool) : Prop := leChars a.name b.name = true

instance : DecidableRel toolLe := fun _ _ => instDecidableEqBool _ _

/-- The collection phase of `discover_tools` (before the final sort), in
candidate order. -/
def collectTools (cands : List (List Char × List Char))
    (ex : List Char → List String → Option (List Char)) : List Tool :=
  cands.filterMap (fun c =>
    let pr := probe_version (ex c.2)
    if pr.success && looks_like_version pr.output then
      some ⟨c.1, c.2, pr.version, ToolCategory.Unknown⟩
    else none)

/-- `discover_tools`, `path_scan.rs` lines 104–166: probe all candidates,
keep the successful ones, sort by name. -/
def discover_tools (cands : List (List Char × List Char))
    (ex : List Char → List String → Option (List Char)) : List Tool :=
  List.insertionSort toolLe (collectTools cands ex)

/-!
### Project detector, `project_detect.rs`

Only the parts the claims are about are modelled: `probe_ecosystem` and
`parse_dependencies_json`.  The environment of one detection run —
`which`-based `command_exists`, `execute_for_output`, and `serde_json`
string parsing — is a record of functions.
-/

inductive CommandParser where
  | Json
  | PlainText
deriving DecidableEq

structure EcosystemCommand where
  tool : String
  args : List String
  parser : CommandParser

structure ProjectMarker where
  file_name : String
  ecosystem : List Char
  commands : List EcosystemCommand

structure DependencyInfo where
  count : Nat
  sample : List String
deriving DecidableEq

structure EcosystemInfo where
  name : List Char
  tool_version : Option (List Char)
  dependencies : Option DependencyInfo
deriving DecidableEq

/-- `serde_json::Value`, with objects as ordered field lists. -/
inductive JsonVal where
  | null
  | jbool (b : Bool)
  | jnum (n : Int)
  | jstr (s : String)
  | jarr (xs : List JsonVal)
  | jobj (fields : List (String × JsonVal))

/-- `Value::get(key)` on an object. -/
def jGet (j : JsonVal) (key : String) : Option JsonVal :=
  match j with
  | .jobj fields => (fields.find? (fun kv => kv.1 == key)).map (fun kv => kv.2)
  | _ => none

/-- `as_object` followed by `keys()`. -/
def jObjKeys : JsonVal → Option (List String)
  | .jobj fields => some (fields.map (fun kv => kv.1))
  | _ => none

/-- `as_array`. -/
def jAsArr : JsonVal → Option (List JsonVal)
  | .jarr xs => some xs
  | _ => none

/-- `as_str`. -/
def jAsStr : JsonVal → Option String
  | .jstr s => some s
  | _ => none

/-- The ecosystem-keyed name extraction of `parse_dependencies_json`,
`project_detect.rs` lines 383–407 (the `deps` value). -/
def depNames (j : JsonVal) (ecosystem : List Char) : Option (List String) :=
  if containsSub ecosystem ("Node".toList) then
    (jGet j "dependencies").bind jObjKeys
  else if containsSub ecosystem ("Python".toList) then
    (jAsArr j).map (fun arr => arr.filterMap (fun v => (jGet v "name").bind jAsStr))
  else if containsSub ecosystem ("Rust".toList) then
    ((jGet j "packages").bind jAsArr).map
      (fun arr => arr.filterMap (fun v => (jGet v "name").bind jAsStr))
  else none

/-- `parse_dependencies_json` after JSON parsing, `project_detect.rs` lines
409–421: drop empty lists, keep the true count, cap the sample at 5. -/
def parse_dependencies_v (j : JsonVal) (ecosystem : List Char) : Option DependencyInfo :=
  (depNames j ecosystem).bind (fun dep_list =>
    if dep_list.isEmpty then none
    else some ⟨dep_list.length, dep_list.take 5⟩)

/-- `parse_dependencies_json`, `project_detect.rs` lines 380–422, with the
serde string parser abstracted as `pj`. -/
def parse_dependencies_json (pj : List Char → Option JsonVal) (s : List Char)
    (ecosystem : List Char) : Option DependencyInfo :=
  match pj s with
  | none => none
  | some j => parse_dependencies_v j ecosystem

/-- Environment of one `probe_ecosystem` run. -/
structure EcoEnv where
  toolExists : String → Bool
  run : String → List String → Option (List Char)
  pj : List Char → Option JsonVal

/-- A command's output when it runs: skipped when `command_exists` fails,
otherwise the result of `execute_for_output`. -/
def ranOutput (env : EcoEnv) (cmd : EcosystemCommand) : Option (List Char) :=
  if env.toolExists cmd.tool then env.run cmd.tool cmd.args else none

/-- One iteration of the command loop of `probe_ecosystem`,
`project_detect.rs` lines 342–366, on the `(tool_version, dependencies)`
state. -/
def probeStep (env : EcoEnv) (eco : List Char)
    (st : Option (List Char) × Option DependencyInfo) (cmd : EcosystemCommand) :
    Option (List Char) × Option DependencyInfo :=
  match ranOutput env cmd with
  | none => st
  | some o =>
      match cmd.parser with
      | .PlainText => (if st.1.isNone then extract_version o else st.1, st.2)
      | .Json => (st.1, parse_dependencies_json env.pj o eco)

/-- `probe_ecosystem`, `project_detect.rs` lines 338–377. -/
def probe_ecosystem (marker : ProjectMarker) (env : EcoEnv) : Option EcosystemInfo :=
  let st := marker.commands.foldl (probeStep env marker.ecosystem) (none, none)
  if st.1.isSome || st.2.isSome then
    some ⟨marker.ecosystem, st.1, st.2⟩
  else none

/-!
### Specification-side definitions used by the claim theorems
-/

/-- One strategy attempt as the amended C1 describes it: the strategy's
output together with its extracted version, when both exist. -/
def tryStrategy (e : List String → Option (List Char)) (s : List String) :
    Option (List Char × List Char) :=
  match e s with
  | some o =>
      match extract_version o with
      | some v => some (o, v)
      | none => none
  | none => none

/-- First strategy hit in the fixed order of `strategies`. -/
def firstStrategyHit (e : List String → Option (List Char)) :
    Option (List Char × List Char) :=
  tryStrategy e ["--version"] <|>
    (tryStrategy e ["-v"] <|> (tryStrategy e ["version"] <|> tryStrategy e ["-V"]))

/-- A first line with an extractable version followed by 500 filler
characters: 505 bytes, so it fails `looks_like_version`. -/
def longPatternOutput : List Char := "1.2.3".toList ++ List.replicate 500 'x'

/-- Executor whose only produced output is `longPatternOutput`. -/
def heuristicFailExec (s : List String) : Option (List Char) :=
  if s = ["--version"] then some longPatternOutput else none

/-- A digit directly followed by a dot and a digit somewhere in the string:
the names for which the version regex can fire inside the name part of a
banner. -/
def hasDDD : List Char → Bool
  | a :: b :: c :: rest => (isDigitC a && b = '.' && isDigitC c) || hasDDD (b :: c :: rest)
  | _ => false

/-- 250 two-byte characters and a keyword: 257 characters but 507 UTF-8
bytes. -/
def manyTwoByte : List Char := List.replicate 250 'é' ++ "version".toList

/-- The dotted version part `<d1>.<d2>.<d3>` of a banner. -/
def dottedVer (d1 d2 d3 : List Char) : List Char :=
  d1 ++ '.' :: (d2 ++ '.' :: d3)

/-- The name order underlying the final sort of `discover_tools`. -/
def nameLe (a b : List Char) : Prop := leChars a b = true

/-- Two candidates, out of name order. -/
def twoCands : List (List Char × List Char) :=
  [("node".toList, "/usr/bin/node".toList), ("cmake".toList, "/usr/bin/cmake".toList)]

/-- Executor answering every `--version` request with a fixed banner. -/
def simpleExec (_p : List Char) (args : List String) : Option (List Char) :=
  if args = ["--version"] then some ("version 1.2.3".toList) else none

/-- C9 specification: the extracted version of the first PlainText command
that ran and yielded one. -/
def firstPlainVersion (env : EcoEnv) : List EcosystemCommand → Option (List Char)
  | [] => none
  | cmd :: rest =>
      (match cmd.parser with
       | .PlainText => (ranOutput env cmd).bind extract_version
       | .Json => none) <|> firstPlainVersion env rest

/-- C9 specification: the dependency-extraction result of the last Json
command that ran (`some r` when some Json command ran, with `r` its result,
possibly `none`). -/
def lastJsonResult (env : EcoEnv) (eco : List Char) :
    List EcosystemCommand → Option (Option DependencyInfo)
  | [] => none
  | cmd :: rest =>
      lastJsonResult env eco rest <|>
        (match cmd.parser with
         | .Json => (ranOutput env cmd).map (fun o => parse_dependencies_json env.pj o eco)
         | .PlainText => none)

/-- The parsed form of `[{"name":"flask"},{"name":"numpy"}]`. -/
def pipListJson : JsonVal :=
  .jarr [.jobj [("name", .jstr "flask")], .jobj [("name", .jstr "numpy")]]

/-- One candidate for the discovery witness. -/
def oneCand : List (List Char × List Char) :=
  [("python3".toList, "/usr/bin/python3".toList)]

/-- Executor for the discovery witness: a Python-style banner on
`--version`. -/
def pythonExec (_p : List Char) (args : List String) : Option (List Char) :=
  if args = ["--version"] then some ("Python 3.11.0".toList) else none


/-!
## Helper lemmas
-/

theorem childDone_none (t : Nat) : childDone none t = false := rfl

theorem childDone_some (f t : Nat) : childDone (some f) t = decide (f ≤ t) := rfl

theorem execLoop_none_spec (out : ProcOutput) (prog : List Char) :
    ∀ k t, 1500 - t = k → t % 25 = 0 → t ≤ 1500 →
      execLoop none out prog t =
        (Except.error (ExecErr.timedOut prog), [ProcAction.kill, ProcAction.reap]) := by
  intro k
  induction k using Nat.strong_induction_on with
  | _ k ih =>
    intro t hk hmod hle
    rw [execLoop, childDone_none, if_neg (by simp)]
    by_cases ht : COMMAND_TIMEOUT_MS ≤ t
    · rw [if_pos ht]
    · rw [if_neg ht]
      have ht' : t < 1500 := by simpa [COMMAND_TIMEOUT_MS] using ht
      exact ih (1500 - (t + 25)) (by omega) (t + 25) rfl (by omega) (by omega)

theorem execLoop_some_spec (f : Nat) (out : ProcOutput) (prog : List Char) :
    ∀ k t, 1500 - t = k → t % 25 = 0 → t ≤ 1500 →
      execLoop (some f) out prog t =
        (if f ≤ 1500 then (Except.ok out, [ProcAction.collect])
         else (Except.error (ExecErr.timedOut prog), [ProcAction.kill, ProcAction.reap])) := by
  intro k
  induction k using Nat.strong_induction_on with
  | _ k ih =>
    intro t hk hmod hle
    rw [execLoop, childDone_some]
    by_cases hf : f ≤ t
    · rw [if_pos (by simpa using hf), if_pos (le_trans hf hle)]
    · rw [if_neg (by simpa using hf)]
      by_cases ht : COMMAND_TIMEOUT_MS ≤ t
      · have h1500 : t = 1500 := le_antisymm hle (by simpa [COMMAND_TIMEOUT_MS] using ht)
        rw [if_pos ht, if_neg (by omega)]
      · rw [if_neg ht]
        have ht' : t < 1500 := by simpa [COMMAND_TIMEOUT_MS] using ht
        exact ih (1500 - (t + 25)) (by omega) (t + 25) rfl (by omega) (by omega)

/-!
## Claim theorems
-/

/-- C2: `execute_command` returns an error exactly when spawning fails or
the 1500 ms wall-clock budget is exceeded; on timeout it kills the child,
then reaps it with a blocking wait, and the error carries the program name;
on normal exit it returns the captured output whatever the exit status is. -/
theorem execute_command_timeout_contract :
    (∀ prog, execute_command SpawnOutcome.fail prog =
      (Except.error ExecErr.spawnFailed, []))
    ∧ (∀ out prog, execute_command (SpawnOutcome.child none out) prog =
        (Except.error (ExecErr.timedOut prog), [ProcAction.kill, ProcAction.reap]))
    ∧ (∀ f out prog, execute_command (SpawnOutcome.child (some f) out) prog =
        (if f ≤ COMMAND_TIMEOUT_MS then (Except.ok out, [ProcAction.collect])
         else (Except.error (ExecErr.timedOut prog), [ProcAction.kill, ProcAction.reap])))
    ∧ (∀ s prog, (execute_command s prog).1.isOk = true ↔
        (∃ f out, s = SpawnOutcome.child (some f) out ∧ f ≤ COMMAND_TIMEOUT_MS)) := by
  refine ⟨fun prog => rfl, ?_, ?_, ?_⟩
  · intro out prog
    show execLoop none out prog 0 = _
    rw [execLoop_none_spec out prog 1500 0 rfl rfl (by omega)]
  · intro f out prog
    show execLoop (some f) out prog 0 = _
    rw [execLoop_some_spec f out prog 1500 0 rfl rfl (by omega)]
    simp only [COMMAND_TIMEOUT_MS]
  · intro s prog
    cases s with
    | fail =>
      constructor
      · intro h
        simp [execute_command, Except.isOk, Except.toBool] at h
      · rintro ⟨f, o, h, _⟩
        cases h
    | child finish out =>
      cases finish with
      | none =>
        show ((execLoop none out prog 0).1.isOk = true ↔ _)
        rw [execLoop_none_spec out prog 1500 0 rfl rfl (by omega)]
        constructor
        · intro h
          simp [Except.isOk, Except.toBool] at h
        · rintro ⟨f, o, h, _⟩
          simp at h
      | some f =>
        show ((execLoop (some f) out prog 0).1.isOk = true ↔ _)
        rw [execLoop_some_spec f out prog 1500 0 rfl rfl (by omega)]
        by_cases hf : f ≤ 1500
        · rw [if_pos hf]
          simp only [Except.isOk, Except.toBool, true_iff]
          exact ⟨f, out, rfl, by simpa [COMMAND_TIMEOUT_MS] using hf⟩
        · rw [if_neg hf]
          constructor
          · intro h
            simp [Except.isOk, Except.toBool] at h
          · rintro ⟨f', o, h, hle⟩
            injection h with h1 h2
            injection h1 with h1
            exact absurd (h1 ▸ hle) (by simpa [COMMAND_TIMEOUT_MS] using hf)

/-- C6: `execute_for_output` surfaces exactly one stream — on success stdout
if non-blank else stderr, on non-zero exit stderr if non-blank else stdout —
and yields nothing when both streams are blank or when execution failed to
spawn or timed out. -/
theorem execute_for_output_stream_choice :
    (∀ so se, execute_for_output_res (Except.ok ⟨so, se, true⟩) =
      (if isBlank so then (if isBlank se then none else some se) else some so))
    ∧ (∀ so se, execute_for_output_res (Except.ok ⟨so, se, false⟩) =
        (if isBlank se then (if isBlank so then none else some so) else some se))
    ∧ (∀ err, execute_for_output_res (Except.error err) = none)
    ∧ (∀ prog, execute_for_output SpawnOutcome.fail prog = none)
    ∧ (∀ out prog, execute_for_output (SpawnOutcome.child none out) prog = none) := by
  refine ⟨?_, ?_, fun err => rfl, fun prog => rfl, ?_⟩
  · intro so se
    simp only [execute_for_output_res]
    cases h1 : isBlank so with
    | true =>
      cases h2 : isBlank se with
      | true => simp [h1, h2]
      | false => simp [h1, h2]
    | false => simp [h1]
  · intro so se
    simp only [execute_for_output_res]
    cases h2 : isBlank se with
    | true =>
      cases h1 : isBlank so with
      | true => simp [h1, h2]
      | false => simp [h1, h2]
    | false => simp [h2]
  · intro out prog
    show execute_for_output_res (execLoop none out prog 0).1 = none
    rw [execLoop_none_spec out prog 1500 0 rfl rfl (by omega)]
    rfl

/-- C5: `classify_tool` is a pure function of the name and path into the
closed five-value category enum; the ordered rules give priority
LanguageToolchain > PackageManager > BuildSystem > DeveloperTool > Unknown
with the first match winning, so `swift` — present in both the toolchain
and package-manager vocabularies — classifies as a language toolchain. -/
theorem classify_tool_priority :
    (∀ n₁ p₁ n₂ p₂ : List Char, n₁ = n₂ → p₁ = p₂ →
      classify_tool n₁ p₁ = classify_tool n₂ p₂)
    ∧ (∀ n p : List Char, ∃! c : ToolCategory, classify_tool n p = c)
    ∧ (∀ n p : List Char,
        is_language_toolchain (n.map toLowerC) (p.map toLowerC) = true →
        classify_tool n p = ToolCategory.LanguageToolchain)
    ∧ (∀ n p : List Char,
        is_language_toolchain (n.map toLowerC) (p.map toLowerC) = false →
        is_package_manager (n.map toLowerC) = true →
        classify_tool n p = ToolCategory.PackageManager)
    ∧ (∀ n p : List Char,
        is_language_toolchain (n.map toLowerC) (p.map toLowerC) = false →
        is_package_manager (n.map toLowerC) = false →
        is_build_system (n.map toLowerC) = true →
        classify_tool n p = ToolCategory.BuildSystem)
    ∧ (∀ n p : List Char,
        is_language_toolchain (n.map toLowerC) (p.map toLowerC) = false →
        is_package_manager (n.map toLowerC) = false →
        is_build_system (n.map toLowerC) = false →
        is_developer_tool (n.map toLowerC) (p.map toLowerC) = true →
        classify_tool n p = ToolCategory.DeveloperTool)
    ∧ (∀ n p : List Char,
        is_language_toolchain (n.map toLowerC) (p.map toLowerC) = false →
        is_package_manager (n.map toLowerC) = false →
        is_build_system (n.map toLowerC) = false →
        is_developer_tool (n.map toLowerC) (p.map toLowerC) = false →
        classify_tool n p = ToolCategory.Unknown)
    ∧ is_language_toolchain (("swift".toList).map toLowerC)
        (("/usr/bin/swift".toList).map toLowerC) = true
    ∧ is_package_manager (("swift".toList).map toLowerC) = true
    ∧ classify_tool ("swift".toList) ("/usr/bin/swift".toList) =
        ToolCategory.LanguageToolchain := by
  refine ⟨fun n₁ p₁ n₂ p₂ h1 h2 => by rw [h1, h2],
    fun n p => ⟨classify_tool n p, rfl, fun y hy => hy.symm⟩,
    ?_, ?_, ?_, ?_, ?_, by decide, by decide, by decide⟩
  · intro n p h
    simp [classify_tool, h]
  · intro n p h1 h2
    simp [classify_tool, h1, h2]
  · intro n p h1 h2 h3
    simp [classify_tool, h1, h2, h3]
  · intro n p h1 h2 h3 h4
    simp [classify_tool, h1, h2, h3, h4]
  · intro n p h1 h2 h3 h4
    simp [classify_tool, h1, h2, h3, h4]

/-- Witness for C5 at the dual-vocabulary name `swift`. -/
theorem classify_tool_priority_witness :
    is_language_toolchain (("swift".toList).map toLowerC)
      (("/usr/bin/swift".toList).map toLowerC) = true
    ∧ classify_tool ("swift".toList) ("/usr/bin/swift".toList) =
        ToolCategory.LanguageToolchain :=
  ⟨by decide, classify_tool_priority.2.2.1 ("swift".toList) ("/usr/bin/swift".toList) (by decide)⟩

theorem probeGo_cons (e : List String → Option (List Char)) (s : List String)
    (rest : List (List String)) :
    probeGo e (s :: rest) =
      (match tryStrategy e s with
       | some (o, v) => ⟨true, trimChars o, some v⟩
       | none => probeGo e rest) := by
  simp only [probeGo, tryStrategy]
  cases e s with
  | none => rfl
  | some o =>
    dsimp only
    cases extract_version o with
    | none => rfl
    | some v => rfl

/-- C1 (amended): `probe_version` tries the four strategies in order and
stops at the first whose output is produced successfully by the executor
and yields an extracted version (`extract_version`); when no strategy
satisfies both, the result is the failed `ProbeResult` with no version. -/
theorem probe_version_first_extraction_wins :
    (∀ e, probe_version e =
      (match firstStrategyHit e with
       | some (o, v) => ⟨true, trimChars o, some v⟩
       | none => ⟨false, [], none⟩))
    ∧ strategies = [["--version"], ["-v"], ["version"], ["-V"]] := by
  refine ⟨fun e => ?_, rfl⟩
  show probeGo e strategies = _
  simp only [strategies, firstStrategyHit]
  rw [probeGo_cons, probeGo_cons, probeGo_cons, probeGo_cons]
  cases h1 : tryStrategy e ["--version"] with
  | some p => obtain ⟨o, v⟩ := p; simp
  | none =>
    rw [Option.none_orElse]
    cases h2 : tryStrategy e ["-v"] with
    | some p => obtain ⟨o, v⟩ := p; simp
    | none =>
      rw [Option.none_orElse]
      cases h3 : tryStrategy e ["version"] with
      | some p => obtain ⟨o, v⟩ := p; simp
      | none =>
        rw [Option.none_orElse]
        cases h4 : tryStrategy e ["-V"] with
        | some p => obtain ⟨o, v⟩ := p; simp
        | none => rfl

set_option maxRecDepth 8000 in
/-- Counterexample to C1 as stated: under `heuristicFailExec` the only
strategy output fails `looks_like_version` — so no strategy satisfies both
of the claim's conditions — yet `probe_version` returns a successful
result, because the code gates on `extract_version`, not on the
looks-like-version heuristic. -/
theorem probe_version_heuristic_cex :
    heuristicFailExec ["--version"] = some longPatternOutput
    ∧ looks_like_version longPatternOutput = false
    ∧ heuristicFailExec ["-v"] = none
    ∧ heuristicFailExec ["version"] = none
    ∧ heuristicFailExec ["-V"] = none
    ∧ (probe_version heuristicFailExec).success = true
    ∧ (probe_version heuristicFailExec).version = some ("1.2.3".toList) := by
  refine ⟨rfl, by decide, rfl, rfl, rfl, ?_, ?_⟩ <;> decide

theorem parse_v_shape (j : JsonVal) (eco : List Char) (di : DependencyInfo)
    (h : parse_dependencies_v j eco = some di) :
    ∃ l, depNames j eco = some l ∧ l ≠ [] ∧ di = ⟨l.length, l.take 5⟩ := by
  cases hd : depNames j eco with
  | none => simp [parse_dependencies_v, hd] at h
  | some l =>
    simp only [parse_dependencies_v, hd, Option.some_bind] at h
    by_cases he : l.isEmpty = true
    · rw [if_pos he] at h
      cases h
    · rw [if_neg he] at h
      injection h with h
      exact ⟨l, rfl, fun hl => he (by simp [hl]), h.symm⟩

/-- C8: every `DependencyInfo` produced by the JSON dependency extraction
has `sample.length ≤ min 5 count` with `count` the true number of extracted
dependencies before capping; the pip-list example with flask and numpy
yields count 2 and sample `[flask, numpy]`. -/
theorem parse_dependencies_cap :
    (∀ j eco l, depNames j eco = some l → l ≠ [] →
      parse_dependencies_v j eco = some ⟨l.length, l.take 5⟩)
    ∧ (∀ j eco di, parse_dependencies_v j eco = some di →
        di.sample.length = min 5 di.count ∧ di.sample.length ≤ min 5 di.count)
    ∧ (∀ pj s eco di, parse_dependencies_json pj s eco = some di →
        di.sample.length ≤ min 5 di.count)
    ∧ (∀ pj s, pj s = some pipListJson →
        parse_dependencies_json pj s ("Python".toList) =
          some ⟨2, ["flask", "numpy"]⟩)
    ∧ parse_dependencies_v pipListJson ("Python".toList) = some ⟨2, ["flask", "numpy"]⟩ := by
  have hshape : ∀ j eco di, parse_dependencies_v j eco = some di →
      di.sample.length = min 5 di.count := by
    intro j eco di h
    obtain ⟨l, _, _, hdi⟩ := parse_v_shape j eco di h
    subst hdi
    exact List.length_take 5 l
  refine ⟨?_, fun j eco di h => ⟨hshape j eco di h, le_of_eq (hshape j eco di h)⟩, ?_, ?_, by decide⟩
  · intro j eco l h hne
    simp only [parse_dependencies_v, h, Option.some_bind]
    rw [if_neg (by simpa using hne)]
  · intro pj s eco di h
    cases hp : pj s with
    | none => simp [parse_dependencies_json, hp] at h
    | some j =>
      simp only [parse_dependencies_json, hp] at h
      exact le_of_eq (hshape j eco di h)
  · intro pj s h
    simp only [parse_dependencies_json, h]
    decide

/-- Witness for C8 at the pip-list example. -/
theorem parse_dependencies_cap_witness :
    parse_dependencies_v pipListJson ("Python".toList) = some ⟨2, ["flask", "numpy"]⟩
    ∧ (⟨2, ["flask", "numpy"]⟩ : DependencyInfo).sample.length ≤ min 5 2 :=
  ⟨parse_dependencies_cap.2.2.2.2,
   (parse_dependencies_cap.2.1 pipListJson ("Python".toList) ⟨2, ["flask", "numpy"]⟩
     parse_dependencies_cap.2.2.2.2).2⟩

theorem probeFold_spec (env : EcoEnv) (eco : List Char) :
    ∀ (cmds : List EcosystemCommand) (tv0 : Option (List Char))
      (dd0 : Option DependencyInfo),
      cmds.foldl (probeStep env eco) (tv0, dd0) =
        (tv0 <|> firstPlainVersion env cmds,
         (lastJsonResult env eco cmds).getD dd0) := by
  intro cmds
  induction cmds with
  | nil =>
    intro tv0 dd0
    simp [firstPlainVersion, lastJsonResult]
  | cons cmd rest ih =>
    intro tv0 dd0
    simp only [List.foldl_cons]
    cases hro : ranOutput env cmd with
    | none =>
      have hstep : probeStep env eco (tv0, dd0) cmd = (tv0, dd0) := by
        simp [probeStep, hro]
      rw [hstep, ih]
      cases hp : cmd.parser with
      | PlainText =>
        have h1 : firstPlainVersion env (cmd :: rest) = firstPlainVersion env rest := by
          simp [firstPlainVersion, hro, hp]
        have h2 : lastJsonResult env eco (cmd :: rest) = lastJsonResult env eco rest := by
          simp [lastJsonResult, hro, hp]
        rw [h1, h2]
      | Json =>
        have h1 : firstPlainVersion env (cmd :: rest) = firstPlainVersion env rest := by
          simp [firstPlainVersion, hro, hp]
        have h2 : lastJsonResult env eco (cmd :: rest) = lastJsonResult env eco rest := by
          simp [lastJsonResult, hro, hp]
        rw [h1, h2]
    | some o =>
      cases hp : cmd.parser with
      | PlainText =>
        have hstep : probeStep env eco (tv0, dd0) cmd =
            (if tv0.isNone then extract_version o else tv0, dd0) := by
          simp [probeStep, hro, hp]
        rw [hstep, ih]
        have h1 : firstPlainVersion env (cmd :: rest) =
            (extract_version o <|> firstPlainVersion env rest) := by
          simp [firstPlainVersion, hro, hp]
        have h2 : lastJsonResult env eco (cmd :: rest) = lastJsonResult env eco rest := by
          simp [lastJsonResult, hro, hp]
        rw [h1, h2]
        cases tv0 with
        | none => simp
        | some x => simp
      | Json =>
        have hstep : probeStep env eco (tv0, dd0) cmd =
            (tv0, parse_dependencies_json env.pj o eco) := by
          simp [probeStep, hro, hp]
        rw [hstep, ih]
        have h1 : firstPlainVersion env (cmd :: rest) = firstPlainVersion env rest := by
          simp [firstPlainVersion, hro, hp]
        have h2 : lastJsonResult env eco (cmd :: rest) =
            (lastJsonResult env eco rest <|> some (parse_dependencies_json env.pj o eco)) := by
          simp [lastJsonResult, hro, hp]
        rw [h1, h2]
        cases lastJsonResult env eco rest with
        | none => simp
        | some r => simp

/-- C9: within one marker's command list, `tool_version` is the extracted
version of the first PlainText command that ran and yielded one (no later
command overwrites it), and `dependencies` is the extraction result of the
last Json command that ran (each Json command overwrites any prior result);
the ecosystem entry exists iff either field was populated. -/
theorem probe_ecosystem_first_plain_last_json :
    ∀ (marker : ProjectMarker) (env : EcoEnv),
      probe_ecosystem marker env =
        (if (firstPlainVersion env marker.commands).isSome
            || ((lastJsonResult env marker.ecosystem marker.commands).join).isSome
         then some ⟨marker.ecosystem, firstPlainVersion env marker.commands,
                    (lastJsonResult env marker.ecosystem marker.commands).join⟩
         else none) := by
  intro marker env
  have hjoin : ∀ x : Option (Option DependencyInfo), x.getD none = x.join := by
    intro x
    cases x <;> rfl
  simp only [probe_ecosystem, probeFold_spec, Option.none_orElse, hjoin]

theorem probeGo_success_isSome (e : List String → Option (List Char)) :
    ∀ ss : List (List String),
      (probeGo e ss).success = true → ((probeGo e ss).version).isSome = true := by
  intro ss
  induction ss with
  | nil =>
    intro h
    simp [probeGo] at h
  | cons s rest ih =>
    simp only [probeGo]
    cases e s with
    | none => exact ih
    | some o =>
      dsimp only
      cases extract_version o with
      | none => exact ih
      | some v => exact fun _ => rfl

/-- C10: every tool emitted by the discovery pipeline has a present
version: retention requires the probe to have succeeded, and a successful
probe always carries an extracted version. -/
theorem discover_tools_version_present :
    ∀ cands ex t, t ∈ discover_tools cands ex → t.version.isSome = true := by
  intro cands ex t ht
  have hperm := List.perm_insertionSort toolLe (collectTools cands ex)
  have ht' : t ∈ collectTools cands ex := hperm.mem_iff.mp ht
  obtain ⟨c, _, heq⟩ := List.mem_filterMap.mp ht'
  dsimp only at heq
  by_cases hs : ((probe_version (ex c.2)).success
      && looks_like_version (probe_version (ex c.2)).output) = true
  · rw [if_pos hs] at heq
    injection heq with heq
    rw [← heq]
    exact probeGo_success_isSome (ex c.2) strategies (Bool.and_elim_left hs)
  · rw [if_neg hs] at heq
    cases heq

/-- Witness for C10: a discovered `python3` tool carrying version 3.11.0. -/
theorem discover_tools_version_present_witness :
    (⟨"python3".toList, "/usr/bin/python3".toList, some ("3.11.0".toList),
        ToolCategory.Unknown⟩ : Tool) ∈ discover_tools oneCand pythonExec
    ∧ ((⟨"python3".toList, "/usr/bin/python3".toList, some ("3.11.0".toList),
        ToolCategory.Unknown⟩ : Tool)).version.isSome = true :=
  ⟨by decide, discover_tools_version_present oneCand pythonExec _ (by decide)⟩

/-- C4 (amended): the 500 gate of `looks_like_version` counts UTF-8 bytes
(`str::len`), not characters; over the limit everything is rejected, at or
under it the result is exactly "keyword or version-pattern match". -/
theorem looks_like_version_byte_gate :
    (∀ l : List Char, byteLen l > 500 → looks_like_version l = false)
    ∧ (∀ l : List Char, byteLen l ≤ 500 →
        (looks_like_version l = true ↔
          (keywordHit l = true ∨ (findCapture l).isSome = true))) := by
  constructor
  · intro l h
    simp [looks_like_version, h]
  · intro l h
    rw [looks_like_version, if_neg (by omega)]
    simp [Bool.or_eq_true]

set_option maxRecDepth 4000 in
/-- Witness for C4's amended gate: a 501-byte output is rejected, a short
banner is judged by content. -/
theorem looks_like_version_byte_gate_witness :
    byteLen (List.replicate 501 'a') > 500
    ∧ looks_like_version (List.replicate 501 'a') = false
    ∧ byteLen ("Python 3.11.0".toList) ≤ 500
    ∧ (looks_like_version ("Python 3.11.0".toList) = true ↔
        (keywordHit ("Python 3.11.0".toList) = true
          ∨ (findCapture ("Python 3.11.0".toList)).isSome = true)) :=
  ⟨by decide, looks_like_version_byte_gate.1 _ (by decide),
   by decide, looks_like_version_byte_gate.2 _ (by decide)⟩

set_option maxRecDepth 4000 in
/-- Counterexample to C4 as stated: 257 characters (within the claimed
500-character budget) whose lowercase form contains "version", yet
`looks_like_version` rejects it, because the code's `output.len()` counts
the 507 UTF-8 bytes. -/
theorem looks_like_version_charcount_cex :
    manyTwoByte.length ≤ 500
    ∧ keywordHit manyTwoByte = true
    ∧ looks_like_version manyTwoByte = false :=
  ⟨by decide, by decide, by decide⟩

theorem leChars_total : ∀ a b : List Char, leChars a b = true ∨ leChars b a = true := by
  intro a
  induction a with
  | nil => intro b; left; rfl
  | cons x xs ih =>
    intro b
    cases b with
    | nil => right; rfl
    | cons y ys =>
      by_cases hxy : x = y
      · subst hxy
        simp only [leChars, if_pos rfl]
        exact ih ys
      · rcases lt_or_gt_of_ne hxy with h | h
        · left; simp [leChars, hxy, h]
        · right; simp [leChars, Ne.symm hxy, h]

theorem leChars_trans : ∀ a b c : List Char,
    leChars a b = true → leChars b c = true → leChars a c = true := by
  intro a
  induction a with
  | nil => intro b c _ _; rfl
  | cons x xs ih =>
    intro b c hab hbc
    cases b with
    | nil => simp [leChars] at hab
    | cons y ys =>
      cases c with
      | nil => simp [leChars] at hbc
      | cons z zs =>
        simp only [leChars] at hab hbc ⊢
        by_cases hxy : x = y
        · subst hxy
          rw [if_pos rfl] at hab
          by_cases hyz : x = z
          · subst hyz
            rw [if_pos rfl] at hbc ⊢
            exact ih ys zs hab hbc
          · rw [if_neg hyz] at hbc ⊢
            exact hbc
        · rw [if_neg hxy] at hab
          have hxylt : x < y := by simpa using hab
          by_cases hyz : y = z
          · subst hyz
            rw [if_neg hxy]
            simpa using hxylt
          · rw [if_neg hyz] at hbc
            have hyzlt : y < z := by simpa using hbc
            have hxz : x < z := lt_trans hxylt hyzlt
            rw [if_neg (show ¬x = z from fun he => absurd (he ▸ hxz) (lt_irrefl z))]
            simpa using hxz

theorem leChars_antisymm : ∀ a b : List Char,
    leChars a b = true → leChars b a = true → a = b := by
  intro a
  induction a with
  | nil =>
    intro b _ hba
    cases b with
    | nil => rfl
    | cons y ys => simp [leChars] at hba
  | cons x xs ih =>
    intro b hab hba
    cases b with
    | nil => simp [leChars] at hab
    | cons y ys =>
      simp only [leChars] at hab hba
      by_cases hxy : x = y
      · subst hxy
        rw [if_pos rfl] at hab hba
        rw [ih ys hab hba]
      · rw [if_neg hxy] at hab
        rw [if_neg (Ne.symm hxy)] at hba
        have h1 : x < y := by simpa using hab
        have h2 : y < x := by simpa using hba
        exact absurd (lt_trans h1 h2) (lt_irrefl x)

/-- C7: the discovery result is sorted by tool name, is a function of the
environment alone (two runs over an unchanged candidate list and executor
agree), and its name list does not depend on the order in which the
parallel probes delivered the collected tools. -/
theorem discover_tools_sorted_deterministic :
    (∀ cands ex, List.Sorted nameLe ((discover_tools cands ex).map Tool.name))
    ∧ (∀ c₁ e₁ c₂ e₂, c₁ = c₂ → e₁ = e₂ →
        (discover_tools c₁ e₁).map Tool.name = (discover_tools c₂ e₂).map Tool.name)
    ∧ (∀ cands ex l, l.Perm (collectTools cands ex) →
        (List.insertionSort toolLe l).map Tool.name =
          (discover_tools cands ex).map Tool.name) := by
  haveI : IsTotal Tool toolLe := ⟨fun a b => leChars_total a.name b.name⟩
  haveI : IsTrans Tool toolLe := ⟨fun a b c => leChars_trans a.name b.name c.name⟩
  haveI : IsAntisymm (List Char) nameLe := ⟨fun a b => leChars_antisymm a b⟩
  have hsorted : ∀ l : List Tool,
      List.Sorted nameLe ((List.insertionSort toolLe l).map Tool.name) := by
    intro l
    have hs : List.Sorted toolLe (List.insertionSort toolLe l) :=
      List.sorted_insertionSort toolLe l
    exact List.Pairwise.map Tool.name (fun a b hab => hab) hs
  refine ⟨fun cands ex => hsorted _, fun c₁ e₁ c₂ e₂ h1 h2 => by rw [h1, h2], ?_⟩
  intro cands ex l hperm
  refine List.eq_of_perm_of_sorted ?_ (hsorted l) (hsorted (collectTools cands ex))
  exact ((List.perm_insertionSort toolLe l).trans
    (hperm.trans (List.perm_insertionSort toolLe (collectTools cands ex)).symm)).map Tool.name

/-- Witness for C7: a permuted collection order yields the same sorted
name list. -/
theorem discover_tools_sorted_witness :
    ((collectTools twoCands simpleExec).reverse).Perm (collectTools twoCands simpleExec)
    ∧ (List.insertionSort toolLe ((collectTools twoCands simpleExec).reverse)).map Tool.name =
        (discover_tools twoCands simpleExec).map Tool.name :=
  ⟨List.reverse_perm _,
   discover_tools_sorted_deterministic.2.2 twoCands simpleExec _ (List.reverse_perm _)⟩

/-- Counterexample to C3 as stated: the banner `"1.2 3.4.5"` has the form
`<name> <d>.<d>.<d>` with name `"1.2"`, but extraction does not ignore this
tool name — the leftmost regex match captures `"1.2"`, not `"3.4.5"`. -/
theorem extract_version_dotted_name_cex :
    extract_version ("1.2 3.4.5".toList) = some ("1.2".toList)
    ∧ ("1.2".toList : List Char) ≠ ("3.4.5".toList) := by
  refine ⟨by decide, by decide⟩

theorem takeWhile_all_eq (p : Char → Bool) :
    ∀ l : List Char, (∀ c ∈ l, p c = true) → l.takeWhile p = l := by
  intro l
  induction l with
  | nil => intro _; rfl
  | cons c t ih =>
    intro h
    rw [List.takeWhile_cons, if_pos (h c (List.mem_cons_self c t)),
      ih (fun d hd => h d (List.mem_cons_of_mem c hd))]

theorem dropWhile_all_eq (p : Char → Bool) :
    ∀ l : List Char, (∀ c ∈ l, p c = true) → l.dropWhile p = [] := by
  intro l
  induction l with
  | nil => intro _; rfl
  | cons c t ih =>
    intro h
    rw [List.dropWhile_cons, if_pos (h c (List.mem_cons_self c t)),
      ih (fun d hd => h d (List.mem_cons_of_mem c hd))]

theorem takeWhile_append_stop (p : Char → Bool) :
    ∀ (l r : List Char), (∀ c ∈ l, p c = true) →
      (∀ c, r.head? = some c → p c = false) →
      ((l ++ r).takeWhile p = l ∧ (l ++ r).dropWhile p = r) := by
  intro l
  induction l with
  | nil =>
    intro r _ hr
    cases r with
    | nil => exact ⟨rfl, rfl⟩
    | cons c t =>
      constructor
      · rw [List.nil_append, List.takeWhile_cons, if_neg (by simp [hr c rfl])]
      · rw [List.nil_append, List.dropWhile_cons, if_neg (by simp [hr c rfl])]
  | cons c t ih =>
    intro r hl hr
    have hc : p c = true := hl c (List.mem_cons_self c t)
    have iht := ih r (fun d hd => hl d (List.mem_cons_of_mem c hd)) hr
    constructor
    · rw [List.cons_append, List.takeWhile_cons, if_pos hc, iht.1]
    · rw [List.cons_append, List.dropWhile_cons, if_pos hc, iht.2]

theorem head_stop (b : Char) (p : Char → Bool) (hb : p b = false) (X : List Char) :
    ∀ c, ((b :: X).head? = some c) → p c = false := by
  intro c hc
  rw [List.head?_cons, Option.some.injEq] at hc
  rw [← hc]
  exact hb

theorem hasDDD_tail : ∀ (a : Char) (l : List Char),
    hasDDD (a :: l) = false → hasDDD l = false := by
  intro a l h
  cases l with
  | nil => rfl
  | cons b t =>
    cases t with
    | nil => rfl
    | cons c u =>
      simp only [hasDDD, Bool.or_eq_false_iff] at h
      exact h.2

theorem hasDDD_append_right : ∀ (x y : List Char),
    hasDDD (x ++ y) = false → hasDDD y = false := by
  intro x
  induction x with
  | nil => intro y h; exact h
  | cons a t ih => intro y h; exact ih y (hasDDD_tail a (t ++ y) h)

theorem hasDDD_cons_of : ∀ (a : Char) (l : List Char),
    hasDDD l = true → hasDDD (a :: l) = true := by
  intro a l h
  cases l with
  | nil => simp [hasDDD] at h
  | cons b t =>
    cases t with
    | nil => simp [hasDDD] at h
    | cons c u => simp [hasDDD, h]

theorem hasDDD_sandwich : ∀ (ds : List Char) (c : Char) (rest : List Char),
    ds ≠ [] → (∀ d ∈ ds, isDigitC d = true) → isDigitC c = true →
    hasDDD (ds ++ '.' :: c :: rest) = true := by
  intro ds
  induction ds with
  | nil => intro c rest h _ _; exact absurd rfl h
  | cons a t ih =>
    intro c rest _ hall hc
    cases t with
    | nil =>
      have ha : isDigitC a = true := hall a (List.mem_cons_self _ _)
      simp [hasDDD, ha, hc]
    | cons b u =>
      have hr := ih c rest (by simp) (fun d hd => hall d (List.mem_cons_of_mem a hd)) hc
      rw [List.cons_append]
      exact hasDDD_cons_of a _ hr

theorem hasDDD_dropWhile (p : Char → Bool) :
    ∀ l : List Char, hasDDD l = false → hasDDD (l.dropWhile p) = false := by
  intro l
  induction l with
  | nil => intro h; exact h
  | cons a t ih =>
    intro h
    by_cases ha : p a = true
    · rw [List.dropWhile_cons, if_pos ha]
      exact ih (hasDDD_tail a t h)
    · rw [List.dropWhile_cons, if_neg ha]
      exact h

theorem digitSplit : ∀ (u z : List Char),
    ∃ u₂ : List Char,
      u = (u ++ ' ' :: z).takeWhile isDigitC ++ u₂
      ∧ (u ++ ' ' :: z).dropWhile isDigitC = u₂ ++ ' ' :: z
      ∧ (∀ c, u₂.head? = some c → isDigitC c = false) := by
  intro u z
  induction u with
  | nil =>
    refine ⟨[], ?_, ?_, fun c hc => by cases hc⟩
    · rw [List.nil_append, List.takeWhile_cons, if_neg (by decide)]
      rfl
    · rw [List.nil_append, List.dropWhile_cons, if_neg (by decide)]
  | cons a t ih =>
    by_cases ha : isDigitC a = true
    · obtain ⟨u₂, h1, h2, h3⟩ := ih
      refine ⟨u₂, ?_, ?_, h3⟩
      · rw [List.cons_append, List.takeWhile_cons, if_pos ha, List.cons_append, ← h1]
      · rw [List.cons_append, List.dropWhile_cons, if_pos ha]
        exact h2
    · refine ⟨a :: t, ?_, ?_, fun c hc => by cases hc; simpa using ha⟩
      · rw [List.cons_append, List.takeWhile_cons, if_neg ha, List.nil_append]
      · rw [List.cons_append, List.dropWhile_cons, if_neg ha]

theorem toLowerC_digit (c : Char) (h : isDigitC c = true) : toLowerC c = c := by
  simp only [isDigitC, Bool.and_eq_true, decide_eq_true_eq] at h
  rw [toLowerC, if_neg ?_]
  simp only [Bool.and_eq_true, decide_eq_true_eq]
  exact fun hand => absurd (le_trans hand.1 h.2) (by decide)

theorem digit_not_space (c : Char) (hd : isDigitC c = true) : isSpaceC c = false := by
  rw [Bool.eq_false_iff]
  intro hs
  simp only [isSpaceC, Bool.or_eq_true, decide_eq_true_eq] at hs
  rcases hs with ((((h | h) | h) | h) | h) | h <;> subst h <;> exact absurd hd (by decide)

theorem matchCore_sep_none : ∀ (u z : List Char), hasDDD u = false →
    matchCore (u ++ ' ' :: z) = none := by
  intro u z hu
  obtain ⟨u₂, h1, h2, h3⟩ := digitSplit u z
  simp only [matchCore]
  by_cases hds : ((u ++ ' ' :: z).takeWhile isDigitC).isEmpty = true
  · rw [if_pos hds]
  · rw [if_neg hds]
    have hiter : iterOnce ((u ++ ' ' :: z).dropWhile isDigitC) = none := by
      rw [h2]
      cases u₂ with
      | nil =>
        rw [List.nil_append]
        simp only [iterOnce]
        rw [if_neg (by decide)]
      | cons c₂ u₃ =>
        by_cases hdot : c₂ = '.'
        · subst hdot
          have hin : (u₃ ++ ' ' :: z).takeWhile isDigitC = [] := by
            cases u₃ with
            | nil =>
              rw [List.nil_append, List.takeWhile_cons, if_neg (by decide)]
            | cons d u₄ =>
              by_cases hdig : isDigitC d = true
              · exfalso
                have hds_ne : (u ++ ' ' :: z).takeWhile isDigitC ≠ [] :=
                  fun he => hds (by rw [he]; rfl)
                have hall : ∀ d' ∈ (u ++ ' ' :: z).takeWhile isDigitC, isDigitC d' = true :=
                  fun d' hd' => List.mem_takeWhile_imp hd'
                have hDDD : hasDDD u = true := by
                  rw [h1]
                  exact hasDDD_sandwich _ d u₄ hds_ne hall hdig
                rw [hDDD] at hu
                cases hu
              · rw [List.cons_append, List.takeWhile_cons, if_neg hdig]
          rw [List.cons_append]
          simp only [iterOnce]
          simp [hin]
        · rw [List.cons_append]
          simp only [iterOnce]
          rw [if_neg hdot]
    rw [hiter]

theorem matchAfterV_sep_none : ∀ (u z : List Char), hasDDD u = false →
    matchAfterV (u ++ ' ' :: z) = none := by
  intro u z hu
  cases u with
  | nil =>
    rw [List.nil_append]
    simp only [matchAfterV]
    rw [if_neg (by decide)]
    have := matchCore_sep_none [] z rfl
    rwa [List.nil_append] at this
  | cons a t =>
    rw [List.cons_append]
    simp only [matchAfterV]
    have hm1 : matchCore (t ++ ' ' :: z) = none :=
      matchCore_sep_none t z (hasDDD_tail a t hu)
    have hm2 : matchCore (a :: (t ++ ' ' :: z)) = none := by
      have := matchCore_sep_none (a :: t) z hu
      rwa [List.cons_append] at this
    by_cases hv : (a = 'v' || a = 'V') = true
    · rw [if_pos hv, hm1, hm2]
      rfl
    · rw [if_neg hv]
      exact hm2

theorem stripCI_sep : ∀ (pat u z r : List Char), ' ' ∉ pat →
    stripCI pat (u ++ ' ' :: z) = some r →
    ∃ u₁ u₂, u = u₁ ++ u₂ ∧ u₁.length = pat.length ∧ r = u₂ ++ ' ' :: z := by
  intro pat
  induction pat with
  | nil =>
    intro u z r _ h
    injection h with h
    exact ⟨[], u, rfl, rfl, h.symm⟩
  | cons p ps ih =>
    intro u z r hsp h
    cases u with
    | nil =>
      rw [List.nil_append] at h
      simp only [stripCI] at h
      by_cases hp : toLowerC ' ' = p
      · exfalso
        have hp' : p = ' ' := by
          rw [show toLowerC ' ' = ' ' from by decide] at hp
          exact hp.symm
        subst hp'
        exact hsp (List.mem_cons_self _ _)
      · rw [if_neg hp] at h
        cases h
    | cons c u' =>
      rw [List.cons_append] at h
      simp only [stripCI] at h
      by_cases hc : toLowerC c = p
      · rw [if_pos hc] at h
        obtain ⟨u₁, u₂, he, hlen, hr⟩ :=
          ih u' z r (fun hm => hsp (List.mem_cons_of_mem p hm)) h
        exact ⟨c :: u₁, u₂, by rw [he, List.cons_append], by simp [hlen], hr⟩
      · rw [if_neg hc] at h
        cases h

theorem dropSpaces_sep : ∀ (y v : List Char),
    (∀ c, v.head? = some c → isSpaceC c = false) →
    ((y.dropWhile isSpaceC = [] → (y ++ ' ' :: v).dropWhile isSpaceC = v)
     ∧ (y.dropWhile isSpaceC ≠ [] →
        (y ++ ' ' :: v).dropWhile isSpaceC = y.dropWhile isSpaceC ++ ' ' :: v)) := by
  intro y v hv
  induction y with
  | nil =>
    constructor
    · intro _
      rw [List.nil_append, List.dropWhile_cons, if_pos (by decide)]
      cases v with
      | nil => rfl
      | cons c t => rw [List.dropWhile_cons, if_neg (by simp [hv c rfl])]
    · intro h
      exact absurd rfl h
  | cons a t ih =>
    by_cases ha : isSpaceC a = true
    · have hd : (a :: t).dropWhile isSpaceC = t.dropWhile isSpaceC := by
        rw [List.dropWhile_cons, if_pos ha]
      constructor
      · intro h
        rw [List.cons_append, List.dropWhile_cons, if_pos ha]
        exact ih.1 (by rwa [hd] at h)
      · intro h
        rw [List.cons_append, List.dropWhile_cons, if_pos ha, hd]
        exact ih.2 (by rwa [hd] at h)
    · have hd : (a :: t).dropWhile isSpaceC = a :: t := by
        rw [List.dropWhile_cons, if_neg ha]
      constructor
      · intro h
        rw [hd] at h
        cases h
      · intro _
        rw [List.cons_append, List.dropWhile_cons, if_neg ha, hd]
        rfl

theorem matchCore_ver (d1 d2 d3 : List Char) (h1 : d1 ≠ []) (h2 : d2 ≠ []) (h3 : d3 ≠ [])
    (a1 : ∀ c ∈ d1, isDigitC c = true) (a2 : ∀ c ∈ d2, isDigitC c = true)
    (a3 : ∀ c ∈ d3, isDigitC c = true) :
    matchCore (dottedVer d1 d2 d3) = some (dottedVer d1 d2 d3) := by
  have hsp1 := takeWhile_append_stop isDigitC d1 ('.' :: (d2 ++ '.' :: d3)) a1
    (head_stop '.' isDigitC (by decide) _)
  have hsp2 := takeWhile_append_stop isDigitC d2 ('.' :: d3) a2
    (head_stop '.' isDigitC (by decide) _)
  have hiter1 : iterOnce ('.' :: (d2 ++ '.' :: d3)) = some ('.' :: d2, '.' :: d3) := by
    simp [iterOnce, hsp2.1, hsp2.2, h2]
  have hiter2 : iterOnce ('.' :: d3) = some ('.' :: d3, []) := by
    simp [iterOnce, takeWhile_all_eq isDigitC d3 a3, dropWhile_all_eq isDigitC d3 a3, h3]
  have hit_succ : ∀ (s : List Char) (n : Nat), matchIters s (n + 1) =
      (match iterOnce s with
       | some (c, r) => ((c ++ (matchIters r n).1, (matchIters r n).2) : List Char × List Char)
       | none => ([], s)) := fun s n => rfl
  have hmi1 : matchIters ([] : List Char) 1 = ([], []) := rfl
  have hmi : matchIters ('.' :: d3) 2 = ('.' :: d3, []) := by
    rw [show (2 : Nat) = 1 + 1 from rfl, hit_succ, hiter2]
    dsimp only
    rw [hmi1]
    simp
  simp only [dottedVer, matchCore]
  rw [hsp1.1, hsp1.2, if_neg (by simpa using h1), hiter1]
  dsimp only
  rw [hmi]
  simp [sfxAfter, List.append_assoc]

theorem matchAfterV_ver (d1 d2 d3 : List Char) (h1 : d1 ≠ []) (h2 : d2 ≠ []) (h3 : d3 ≠ [])
    (a1 : ∀ c ∈ d1, isDigitC c = true) (a2 : ∀ c ∈ d2, isDigitC c = true)
    (a3 : ∀ c ∈ d3, isDigitC c = true) :
    matchAfterV (dottedVer d1 d2 d3) = some (dottedVer d1 d2 d3) := by
  obtain ⟨c, d1', rfl⟩ : ∃ c d1', d1 = c :: d1' := by
    cases d1 with
    | nil => exact absurd rfl h1
    | cons c d1' => exact ⟨c, d1', rfl⟩
  have hc : isDigitC c = true := a1 c (List.mem_cons_self _ _)
  have hform : dottedVer (c :: d1') d2 d3 = c :: (d1' ++ '.' :: (d2 ++ '.' :: d3)) := by
    simp [dottedVer]
  have hnv : ¬((c = 'v' || c = 'V') = true) := by
    simp only [Bool.or_eq_true, decide_eq_true_eq]
    rintro (rfl | rfl) <;> exact absurd hc (by decide)
  rw [hform]
  simp only [matchAfterV]
  rw [if_neg hnv, ← hform]
  exact matchCore_ver _ _ _ h1 h2 h3 a1 a2 a3

theorem matchAt_ver (d1 d2 d3 : List Char) (h1 : d1 ≠ []) (h2 : d2 ≠ []) (h3 : d3 ≠ [])
    (a1 : ∀ c ∈ d1, isDigitC c = true) (a2 : ∀ c ∈ d2, isDigitC c = true)
    (a3 : ∀ c ∈ d3, isDigitC c = true) :
    matchAt (dottedVer d1 d2 d3) = some (dottedVer d1 d2 d3) := by
  obtain ⟨c, d1', rfl⟩ : ∃ c d1', d1 = c :: d1' := by
    cases d1 with
    | nil => exact absurd rfl h1
    | cons c d1' => exact ⟨c, d1', rfl⟩
  have hc : isDigitC c = true := a1 c (List.mem_cons_self _ _)
  have hform : dottedVer (c :: d1') d2 d3 = c :: (d1' ++ '.' :: (d2 ++ '.' :: d3)) := by
    simp [dottedVer]
  have hstrip : stripCI vPat (dottedVer (c :: d1') d2 d3) = none := by
    rw [hform]
    simp only [vPat, stripCI]
    rw [toLowerC_digit c hc,
      if_neg (show ¬c = 'v' from fun he => by subst he; exact absurd hc (by decide))]
  simp only [matchAt]
  rw [hstrip]
  dsimp only
  rw [Option.none_orElse]
  exact matchAfterV_ver _ _ _ h1 h2 h3 a1 a2 a3

theorem matchAt_sep (u v : List Char) (hu : hasDDD u = false)
    (hever : matchAfterV v = some v)
    (hvhead : ∀ c, v.head? = some c → isSpaceC c = false) :
    matchAt (u ++ ' ' :: v) = none ∨ matchAt (u ++ ' ' :: v) = some v := by
  simp only [matchAt]
  cases hst : stripCI vPat (u ++ ' ' :: v) with
  | none =>
    left
    dsimp only
    rw [Option.none_orElse]
    exact matchAfterV_sep_none u v hu
  | some r =>
    obtain ⟨u₁, u₂, hu12, hlen, hr⟩ := stripCI_sep vPat u v r (by decide) hst
    subst hr
    have hu₂ : hasDDD u₂ = false := hasDDD_append_right u₁ u₂ (hu12 ▸ hu)
    dsimp only
    by_cases hsp : ((u₂ ++ ' ' :: v).takeWhile isSpaceC).isEmpty = true
    · left
      rw [if_pos hsp, Option.none_orElse]
      exact matchAfterV_sep_none u v hu
    · rw [if_neg hsp]
      by_cases hdw : u₂.dropWhile isSpaceC = []
      · right
        rw [(dropSpaces_sep u₂ v hvhead).1 hdw, hever, Option.some_orElse]
      · left
        rw [(dropSpaces_sep u₂ v hvhead).2 hdw,
          matchAfterV_sep_none (u₂.dropWhile isSpaceC) v (hasDDD_dropWhile isSpaceC u₂ hu₂),
          Option.none_orElse]
        exact matchAfterV_sep_none u v hu

theorem findCapture_banner (v : List Char) (hvne : v ≠ [])
    (hever : matchAfterV v = some v) (hatv : matchAt v = some v)
    (hvhead : ∀ c, v.head? = some c → isSpaceC c = false) :
    ∀ u, hasDDD u = false → findCapture (u ++ ' ' :: v) = some v := by
  intro u
  induction u with
  | nil =>
    intro _
    rw [List.nil_append]
    simp only [findCapture]
    rcases matchAt_sep [] v rfl hever hvhead with h | h <;> rw [List.nil_append] at h
    · rw [h, Option.none_orElse]
      cases v with
      | nil => exact absurd rfl hvne
      | cons c rest =>
        simp only [findCapture]
        rw [hatv, Option.some_orElse]
    · rw [h, Option.some_orElse]
  | cons c u' ih =>
    intro hu
    rw [List.cons_append]
    simp only [findCapture]
    have ihv := ih (hasDDD_tail c u' hu)
    rcases matchAt_sep (c :: u') v hu hever hvhead with h | h <;> rw [List.cons_append] at h
    · rw [h, Option.none_orElse]
      exact ihv
    · rw [h, Option.some_orElse]

theorem firstLine_ne_nil (t : List Char) (h : t ≠ []) :
    firstLine t = some (stripCR (t.takeWhile (fun c => !(c = '\n')))) := by
  cases t with
  | nil => exact absurd rfl h
  | cons a t' => rfl

/-- C3 (amended): for every banner `<name> <d1>.<d2>.<d3>` whose name part
contains no newline and no digit-dot-digit substring (a name like `"1.2"`
would itself match the version regex first), `extract_version` returns
exactly the dotted numeric part; the four concrete extractions of the claim
hold; and extraction operates only on the first line of the text. -/
theorem extract_version_banner :
    (∀ nm d1 d2 d3 : List Char,
        d1 ≠ [] → d2 ≠ [] → d3 ≠ [] →
        (∀ c ∈ d1, isDigitC c = true) → (∀ c ∈ d2, isDigitC c = true) →
        (∀ c ∈ d3, isDigitC c = true) →
        hasDDD nm = false → '\n' ∉ nm →
        extract_version (nm ++ ' ' :: dottedVer d1 d2 d3) = some (dottedVer d1 d2 d3))
    ∧ extract_version ("Python 3.11.0".toList) = some ("3.11.0".toList)
    ∧ extract_version ("version 1.2.3".toList) = some ("1.2.3".toList)
    ∧ extract_version ("v2.0.0-alpha".toList) = some ("2.0.0-alpha".toList)
    ∧ extract_version ("rustc 1.75.0".toList) = some ("1.75.0".toList)
    ∧ (∀ t rest : List Char, '\n' ∉ t →
        extract_version (t ++ '\n' :: rest) = extract_version t) := by
  refine ⟨?_, by decide, by decide, by decide, by decide, ?_⟩
  · intro nm d1 d2 d3 h1 h2 h3 a1 a2 a3 hname hnl
    have hvhead : ∀ c, (dottedVer d1 d2 d3).head? = some c → isSpaceC c = false := by
      intro c hc
      cases d1 with
      | nil => exact absurd rfl h1
      | cons a t =>
        rw [show dottedVer (a :: t) d2 d3 = a :: (t ++ '.' :: (d2 ++ '.' :: d3)) from by
              simp [dottedVer]] at hc
        rw [List.head?_cons, Option.some.injEq] at hc
        rw [← hc]
        exact digit_not_space a (a1 a (List.mem_cons_self _ _))
    have hvne : dottedVer d1 d2 d3 ≠ [] := by simp [dottedVer]
    have hever := matchAfterV_ver d1 d2 d3 h1 h2 h3 a1 a2 a3
    have hatv := matchAt_ver d1 d2 d3 h1 h2 h3 a1 a2 a3
    have hfind := findCapture_banner (dottedVer d1 d2 d3) hvne hever hatv hvhead nm hname
    have hvd : ∀ c ∈ dottedVer d1 d2 d3, isDigitC c = true ∨ c = '.' := by
      intro c hc
      simp only [dottedVer, List.mem_append, List.mem_cons] at hc
      rcases hc with h | h | h | h | h
      · exact Or.inl (a1 c h)
      · exact Or.inr h
      · exact Or.inl (a2 c h)
      · exact Or.inr h
      · exact Or.inl (a3 c h)
    have hallnl : ∀ c ∈ nm ++ ' ' :: dottedVer d1 d2 d3,
        (fun c => !(c = '\n')) c = true := by
      intro c hc
      simp only [List.mem_append, List.mem_cons] at hc
      have hcne : c ≠ '\n' := by
        rcases hc with h | h | h
        · exact fun he => hnl (he ▸ h)
        · subst h; decide
        · rcases hvd c h with hd | hd
          · exact fun he => by rw [he] at hd; exact absurd hd (by decide)
          · subst hd; decide
      simp [hcne]
    have hlast : ∃ c, (nm ++ ' ' :: dottedVer d1 d2 d3).getLast? = some c
        ∧ isDigitC c = true := by
      have e1 : (nm ++ ' ' :: dottedVer d1 d2 d3).getLast? =
          (dottedVer d1 d2 d3).getLast? := by
        rw [List.getLast?_append_of_ne_nil nm (by simp),
          show (' ' :: dottedVer d1 d2 d3) = [' '] ++ dottedVer d1 d2 d3 from rfl,
          List.getLast?_append_of_ne_nil [' '] hvne]
      have e2 : (dottedVer d1 d2 d3).getLast? = d3.getLast? := by
        simp only [dottedVer]
        rw [List.getLast?_append_of_ne_nil d1 (by simp),
          show ('.' :: (d2 ++ '.' :: d3)) = ['.'] ++ (d2 ++ '.' :: d3) from rfl,
          List.getLast?_append_of_ne_nil ['.'] (by simp),
          List.getLast?_append_of_ne_nil d2 (by simp),
          show ('.' :: d3) = ['.'] ++ d3 from rfl,
          List.getLast?_append_of_ne_nil ['.'] h3]
      refine ⟨d3.getLast h3, ?_, a3 _ (List.getLast_mem h3)⟩
      rw [e1, e2, List.getLast?_eq_getLast_of_ne_nil h3]
    obtain ⟨lc, hlc, hlcd⟩ := hlast
    rw [extract_version, firstLine_ne_nil _ (by simp), takeWhile_all_eq _ _ hallnl,
      stripCR, if_neg (by
        rw [hlc]
        intro hcontra
        injection hcontra with hcontra
        rw [hcontra] at hlcd
        exact absurd hlcd (by decide)),
      Option.some_bind]
    exact hfind
  · intro t rest hn
    cases t with
    | nil =>
      rw [List.nil_append, extract_version, firstLine_ne_nil _ (by simp),
        List.takeWhile_cons, if_neg (by decide)]
      rfl
    | cons a t' =>
      have hall : ∀ c ∈ (a :: t'), (fun c => !(c = '\n')) c = true := by
        intro c hc
        have hcne : c ≠ '\n' := fun he => hn (he ▸ hc)
        simp [hcne]
      rw [extract_version, extract_version, firstLine_ne_nil _ (by simp),
        firstLine_ne_nil (a :: t') (by simp),
        (takeWhile_append_stop _ (a :: t') ('\n' :: rest) hall
          (head_stop '\n' _ (by decide) _)).1,
        takeWhile_all_eq _ _ hall]

/-- Witness for C3's amended universal at the banner `Python 3.11.0`. -/
theorem extract_version_banner_witness :
    hasDDD ("Python".toList) = false
    ∧ extract_version
        ("Python".toList ++ ' ' :: dottedVer ("3".toList) ("11".toList) ("0".toList)) =
      some (dottedVer ("3".toList) ("11".toList) ("0".toList)) :=
  ⟨by decide,
   extract_version_banner.1 ("Python".toList) ("3".toList) ("11".toList) ("0".toList)
     (by decide) (by decide) (by decide) (by decide) (by decide) (by decide)
     (by decide) (by decide)⟩
